import Mathlib

/-
Verification development for the whisper-obsidian-plugin crash-recovery core.

Shallow embedding of:
  * src/TempRecordingManager.ts  (session store, recovery coordinator, WAV encoder)
  * src/AudioContextManager.ts   (reference-counted shared AudioContext)

File names and paths are modelled as lists of UTF-16 code units (`List Nat`);
byte streams as `List Nat`; audio samples as rationals (the sample arithmetic
performed by the encoder is exact on the values relevant to the claims).
-/

namespace Whisper

/-! ## Lexicographic ordering of names

JavaScript's default `Array.prototype.sort` on strings, and the explicit
comparator `(a, b) => (a > b ? -1 : 1)` used by `findLatestSessionPath`,
compare strings by UTF-16 code units.  `lexLtB a b` models `a < b`. -/

def lexLtB : List Nat → List Nat → Bool
  | _, [] => false
  | [], _ :: _ => true
  | a :: as, b :: bs => if a < b then true else if b < a then false else lexLtB as bs

/-- Ascending comparator: `a ≤ b` in code-unit order. -/
def lexLeB (a b : List Nat) : Bool := !(lexLtB b a)

/-- Descending comparator: `a ≥ b` in code-unit order (models `a > b ? -1 : 1`). -/
def lexGeB (a b : List Nat) : Bool := !(lexLtB a b)

theorem lexLtB_irrefl (l : List Nat) : lexLtB l l = false := by
  induction l with
  | nil => rfl
  | cons a as ih => simp [lexLtB, ih]

theorem lexLtB_trans {a b c : List Nat} (h1 : lexLtB a b = true)
    (h2 : lexLtB b c = true) : lexLtB a c = true := by
  induction a generalizing b c with
  | nil =>
    cases c with
    | nil => simp [lexLtB] at h2
    | cons z zs => simp [lexLtB]
  | cons x xs ih =>
    cases b with
    | nil => simp [lexLtB] at h1
    | cons y ys =>
      cases c with
      | nil => simp [lexLtB] at h2
      | cons z zs =>
        simp only [lexLtB] at h1 h2 ⊢
        rcases Nat.lt_trichotomy x y with hxy | hxy | hxy
        · rcases Nat.lt_trichotomy y z with hyz | hyz | hyz
          · simp [show x < z by omega]
          · subst hyz; simp [hxy]
          · rw [if_neg (by omega), if_pos hyz] at h2
            simp at h2
        · subst hxy
          rw [if_neg (Nat.lt_irrefl x), if_neg (Nat.lt_irrefl x)] at h1
          rcases Nat.lt_trichotomy x z with hyz | hyz | hyz
          · simp [hyz]
          · subst hyz
            rw [if_neg (Nat.lt_irrefl x), if_neg (Nat.lt_irrefl x)] at h2 ⊢
            exact ih h1 h2
          · rw [if_neg (by omega), if_pos hyz] at h2
            simp at h2
        · rw [if_neg (by omega), if_pos hxy] at h1
          simp at h1

theorem lexLtB_asymm {a b : List Nat} (h1 : lexLtB a b = true)
    (h2 : lexLtB b a = true) : False := by
  have h := lexLtB_trans h1 h2
  rw [lexLtB_irrefl] at h
  exact Bool.false_ne_true h

theorem eq_of_lexLtB_false {a b : List Nat} (h1 : lexLtB a b = false)
    (h2 : lexLtB b a = false) : a = b := by
  induction a generalizing b with
  | nil =>
    cases b with
    | nil => rfl
    | cons y ys => simp [lexLtB] at h1
  | cons x xs ih =>
    cases b with
    | nil => simp [lexLtB] at h2
    | cons y ys =>
      simp only [lexLtB] at h1 h2
      rcases Nat.lt_trichotomy x y with hxy | hxy | hxy
      · rw [if_pos hxy] at h1; simp at h1
      · subst hxy
        rw [if_neg (Nat.lt_irrefl x), if_neg (Nat.lt_irrefl x)] at h1 h2
        rw [ih h1 h2]
      · rw [if_pos hxy] at h2; simp at h2

theorem lexLtB_false_trans {a b c : List Nat} (h1 : lexLtB a b = false)
    (h2 : lexLtB b c = false) : lexLtB a c = false := by
  cases hac : lexLtB a c with
  | false => rfl
  | true =>
    exfalso
    cases hba : lexLtB b a with
    | false =>
      have heq := eq_of_lexLtB_false h1 hba
      subst heq
      rw [h2] at hac
      exact Bool.false_ne_true hac
    | true =>
      have hbc := lexLtB_trans hba hac
      rw [h2] at hbc
      exact Bool.false_ne_true hbc

/-! ## Sorting

`Array.prototype.sort` is a stable comparison sort; we embed it as insertion
sort over the given comparator. -/

def sortedInsert (le : List Nat → List Nat → Bool) (x : List Nat) :
    List (List Nat) → List (List Nat)
  | [] => [x]
  | y :: ys => if le x y then x :: y :: ys else y :: sortedInsert le x ys

def isort (le : List Nat → List Nat → Bool) : List (List Nat) → List (List Nat)
  | [] => []
  | x :: xs => sortedInsert le x (isort le xs)

theorem sortedInsert_front {x : List Nat} {l : List (List Nat)}
    (h : ∀ y ∈ l, lexLtB x y = true) : sortedInsert lexLeB x l = x :: l := by
  cases l with
  | nil => rfl
  | cons y ys =>
    have hxy : lexLtB x y = true := h y (by simp)
    have hyx : lexLtB y x = false := by
      cases hyx : lexLtB y x with
      | false => rfl
      | true => exact (lexLtB_asymm hxy hyx).elim
    simp [sortedInsert, lexLeB, hyx]

/-- Sorting an already strictly-ascending list of names is the identity. -/
theorem isort_of_chain : ∀ (l : List (List Nat)),
    List.Pairwise (fun a b => lexLtB a b = true) l → isort lexLeB l = l := by
  intro l
  induction l with
  | nil => intro _; rfl
  | cons x xs ih =>
    intro h
    rcases List.pairwise_cons.mp h with ⟨hx, hxs⟩
    show sortedInsert lexLeB x (isort lexLeB xs) = x :: xs
    rw [ih hxs]
    exact sortedInsert_front hx

/-- The head of a descending sort is a maximum of the input. -/
theorem isort_desc_max : ∀ (l : List (List Nat)), l ≠ [] →
    ∃ h, (isort lexGeB l).head? = some h ∧ h ∈ l ∧ ∀ x ∈ l, lexLtB h x = false := by
  intro l
  induction l with
  | nil => intro hl; exact absurd rfl hl
  | cons x xs ih =>
    intro _
    cases xs with
    | nil =>
      refine ⟨x, by simp [isort, sortedInsert], by simp, ?_⟩
      intro y hy
      simp at hy
      subst hy
      exact lexLtB_irrefl _
    | cons a as =>
      obtain ⟨m, hm, hmem, hmax⟩ := ih (by simp)
      obtain ⟨t, ht⟩ : ∃ t, isort lexGeB (a :: as) = m :: t := by
        cases hs : isort lexGeB (a :: as) with
        | nil => rw [hs] at hm; simp at hm
        | cons b bs =>
          rw [hs] at hm
          simp at hm
          exact ⟨bs, by rw [hm]⟩
      show ∃ h, (sortedInsert lexGeB x (isort lexGeB (a :: as))).head? = some h ∧ _
      rw [ht]
      by_cases hx : lexGeB x m = true
      · refine ⟨x, by simp [sortedInsert, hx], by simp, ?_⟩
        intro y hy
        rcases List.mem_cons.mp hy with rfl | hy
        · exact lexLtB_irrefl _
        · exact lexLtB_false_trans (by simpa [lexGeB] using hx) (hmax y hy)
      · have hxm : lexLtB x m = true := by
          simp [lexGeB] at hx
          exact hx
        refine ⟨m, by simp [sortedInsert, hx], List.mem_cons_of_mem _ hmem, ?_⟩
        intro y hy
        rcases List.mem_cons.mp hy with rfl | hy
        · cases hmx : lexLtB m y with
          | false => rfl
          | true => exact (lexLtB_asymm hxm hmx).elim
        · exact hmax y hy

/-! ## Decimal rendering and zero padding

`String(n)` and `.padStart(w, "0")` from the source.  Code 48 is `'0'`. -/

/-- Decimal digits, most significant first, with a structural fuel parameter
(the fuel only has to dominate the digit count; `toDecimal` passes `n`). -/
def toDecimalAux : Nat → Nat → List Nat
  | 0, n => [n % 10]
  | fuel + 1, n => if n < 10 then [n] else toDecimalAux fuel (n / 10) ++ [n % 10]

/-- Decimal digits of `n`, most significant first; models `String(n)`. -/
def toDecimal (n : Nat) : List Nat := toDecimalAux n n

theorem toDecimalAux_congr : ∀ (f1 : Nat) (f2 n : Nat), n ≤ f1 → n ≤ f2 →
    toDecimalAux f1 n = toDecimalAux f2 n := by
  intro f1
  induction f1 with
  | zero =>
    intro f2 n h1 _
    interval_cases n
    cases f2 with
    | zero => rfl
    | succ j => simp [toDecimalAux]
  | succ k ih =>
    intro f2 n h1 h2
    by_cases hn : n < 10
    · cases f2 with
      | zero =>
        interval_cases n
        simp [toDecimalAux]
      | succ j => simp [toDecimalAux, hn]
    · cases f2 with
      | zero => omega
      | succ j =>
        simp only [toDecimalAux, if_neg hn]
        rw [ih j (n / 10) (by omega) (by omega)]

/-- UTF-16 code units of the decimal rendering of `n`. -/
def decCodes (n : Nat) : List Nat := (toDecimal n).map (fun d => 48 + d)

/-- `s.padStart(w, "0")` on code-unit lists. -/
def padCodes (w : Nat) (l : List Nat) : List Nat :=
  List.replicate (w - l.length) 48 ++ l

theorem toDecimal_lt10 {n : Nat} (h : n < 10) : toDecimal n = [n] := by
  rw [toDecimal]
  cases hn : n with
  | zero => rfl
  | succ k => simp [toDecimalAux, hn ▸ h]

theorem toDecimal_ge10 {n : Nat} (h : ¬ n < 10) :
    toDecimal n = toDecimal (n / 10) ++ [n % 10] := by
  rw [toDecimal, toDecimal]
  cases hn : n with
  | zero => omega
  | succ k =>
    subst hn
    simp only [toDecimalAux, if_neg h]
    rw [toDecimalAux_congr k ((k + 1) / 10) ((k + 1) / 10) (by omega) (le_refl _)]

/-- The padded 4-digit code block of an index below 10000, in closed form. -/
def pad4c (n : Nat) : List Nat :=
  [48 + n / 1000, 48 + n / 100 % 10, 48 + n / 10 % 10, 48 + n % 10]

/-- The padded 2-digit code block of a value below 100, in closed form. -/
def pad2c (n : Nat) : List Nat := [48 + n / 10, 48 + n % 10]

theorem pad4_eq {n : Nat} (h : n < 10000) : padCodes 4 (decCodes n) = pad4c n := by
  by_cases h1 : n < 10
  · have hd : decCodes n = [48 + n] := by simp [decCodes, toDecimal_lt10 h1]
    rw [padCodes, hd]
    show List.replicate 3 48 ++ [48 + n] = pad4c n
    show [48, 48, 48, 48 + n] = pad4c n
    simp only [pad4c, List.cons.injEq, and_true]
    omega
  · by_cases h2 : n < 100
    · have hd : decCodes n = [48 + n / 10, 48 + n % 10] := by
        rw [decCodes, toDecimal_ge10 h1, toDecimal_lt10 (by omega)]
        rfl
      rw [padCodes, hd]
      show List.replicate 2 48 ++ [48 + n / 10, 48 + n % 10] = pad4c n
      show [48, 48, 48 + n / 10, 48 + n % 10] = pad4c n
      simp only [pad4c, List.cons.injEq, and_true]
      omega
    · by_cases h3 : n < 1000
      · have hd : decCodes n = [48 + n / 100, 48 + n / 10 % 10, 48 + n % 10] := by
          rw [decCodes, toDecimal_ge10 h1, toDecimal_ge10 (by omega),
            toDecimal_lt10 (by omega), Nat.div_div_eq_div_mul]
          rfl
        rw [padCodes, hd]
        show List.replicate 1 48 ++ _ = pad4c n
        show [48, 48 + n / 100, 48 + n / 10 % 10, 48 + n % 10] = pad4c n
        simp only [pad4c, List.cons.injEq, and_true]
        omega
      · have hd : decCodes n =
            [48 + n / 1000, 48 + n / 100 % 10, 48 + n / 10 % 10, 48 + n % 10] := by
          rw [decCodes, toDecimal_ge10 h1, toDecimal_ge10 (by omega)]
          rw [show n / 10 / 10 = n / 100 from Nat.div_div_eq_div_mul n 10 10]
          rw [toDecimal_ge10 (by omega)]
          rw [show n / 100 / 10 = n / 1000 from Nat.div_div_eq_div_mul n 100 10]
          rw [toDecimal_lt10 (by omega)]
          rfl
        rw [padCodes, hd]
        show List.replicate 0 48 ++ _ = pad4c n
        show [48 + n / 1000, 48 + n / 100 % 10, 48 + n / 10 % 10, 48 + n % 10] = pad4c n
        rfl

theorem pad2_eq {n : Nat} (h : n < 100) : padCodes 2 (decCodes n) = pad2c n := by
  by_cases h1 : n < 10
  · have hd : decCodes n = [48 + n] := by simp [decCodes, toDecimal_lt10 h1]
    rw [padCodes, hd]
    show List.replicate 1 48 ++ [48 + n] = pad2c n
    show [48, 48 + n] = pad2c n
    simp only [pad2c, List.cons.injEq, and_true]
    omega
  · have hd : decCodes n = [48 + n / 10, 48 + n % 10] := by
      rw [decCodes, toDecimal_ge10 h1, toDecimal_lt10 (by omega)]
      rfl
    rw [padCodes, hd]
    show List.replicate 0 48 ++ [48 + n / 10, 48 + n % 10] = pad2c n
    rfl

end Whisper

namespace Whisper

/-! ## Name construction and ordering -/

/-- Code units of `"chunk-"`. -/
def chunkPreC : List Nat := [99, 104, 117, 110, 107, 45]

/-- Code units of `".dat"`. -/
def dotDatC : List Nat := [46, 100, 97, 116]

/-- Code units of `"session-"`. -/
def sessPreC : List Nat := [115, 101, 115, 115, 105, 111, 110, 45]

/-- Code units of `"manifest.json"`. -/
def manifestNameC : List Nat :=
  [109, 97, 110, 105, 102, 101, 115, 116, 46, 106, 115, 111, 110]

/-- Fragment file name: `chunk-` ++ `String(i).padStart(4, "0")` ++ `.dat`,
from `writeIncrementalChunk`. -/
def chunkName (i : Nat) : List Nat := chunkPreC ++ padCodes 4 (decCodes i) ++ dotDatC

theorem lexLtB_append_same (p x y : List Nat) :
    lexLtB (p ++ x) (p ++ y) = lexLtB x y := by
  induction p with
  | nil => rfl
  | cons a p ih => simp [lexLtB, ih]

theorem lexLtB_append_of_lt {x y : List Nat} (s t : List Nat)
    (hlen : x.length = y.length) (hxy : lexLtB x y = true) :
    lexLtB (x ++ s) (y ++ t) = true := by
  induction x generalizing y with
  | nil =>
    cases y with
    | nil => simp [lexLtB] at hxy
    | cons b bs => simp at hlen
  | cons a as ih =>
    cases y with
    | nil => simp at hlen
    | cons b bs =>
      simp only [lexLtB] at hxy
      simp only [List.cons_append, lexLtB]
      rcases Nat.lt_trichotomy a b with hab | hab | hab
      · rw [if_pos hab]
      · subst hab
        rw [if_neg (Nat.lt_irrefl a), if_neg (Nat.lt_irrefl a)] at hxy ⊢
        exact ih (by simpa using hlen) hxy
      · rw [if_neg (by omega), if_pos hab] at hxy
        simp at hxy

theorem lexLtB_pad4c {i j : Nat} (hij : i < j) (hj : j < 10000) :
    lexLtB (pad4c i) (pad4c j) = true := by
  simp only [pad4c, lexLtB]
  split_ifs <;> first | rfl | (exfalso; omega)

theorem lexLtB_pad2c {i j : Nat} (hij : i < j) (_hj : j < 100) :
    lexLtB (pad2c i) (pad2c j) = true := by
  simp only [pad2c, lexLtB]
  split_ifs <;> first | rfl | (exfalso; omega)

/-- Fragment names of indices below 10000 are strictly ordered: the 4-digit
zero padding makes lexicographic order agree with numeric order. -/
theorem chunkName_mono {i j : Nat} (hij : i < j) (hj : j < 10000) :
    lexLtB (chunkName i) (chunkName j) = true := by
  rw [chunkName, chunkName, List.append_assoc, List.append_assoc, lexLtB_append_same,
    pad4_eq (show i < 10000 by omega), pad4_eq hj]
  exact lexLtB_append_of_lt _ _ (by simp [pad4c]) (lexLtB_pad4c hij hj)

theorem chunkName_ne {i j : Nat} (hij : i ≠ j) (hi : i < 10000) (hj : j < 10000) :
    chunkName i ≠ chunkName j := by
  intro he
  rcases Nat.lt_or_ge i j with h | h
  · have := chunkName_mono h hj
    rw [he, lexLtB_irrefl] at this
    exact Bool.false_ne_true this
  · have hlt : j < i := by omega
    have := chunkName_mono hlt hi
    rw [he, lexLtB_irrefl] at this
    exact Bool.false_ne_true this

/-- A time stamp for the session id / file-name construction: the components
read from a JS `Date` (`getMonth() + 1` is already applied to `month`). -/
structure Stamp where
  year : Nat
  month : Nat
  day : Nat
  hour : Nat
  minute : Nat
  second : Nat
deriving DecidableEq

/-- The fixed-width component ranges of real `Date` values (year 4 digits,
everything else 2 digits after padding). -/
def validStamp (t : Stamp) : Prop :=
  1000 ≤ t.year ∧ t.year < 10000 ∧ t.month < 100 ∧ t.day < 100 ∧
    t.hour < 100 ∧ t.minute < 100 ∧ t.second < 100

instance (t : Stamp) : Decidable (validStamp t) := by
  unfold validStamp
  infer_instance

/-- Chronological (component-lexicographic) order of time stamps. -/
def stampLt (a b : Stamp) : Prop :=
  a.year < b.year ∨ (a.year = b.year ∧ (a.month < b.month ∨ (a.month = b.month ∧
    (a.day < b.day ∨ (a.day = b.day ∧ (a.hour < b.hour ∨ (a.hour = b.hour ∧
      (a.minute < b.minute ∨ (a.minute = b.minute ∧ a.second < b.second)))))))))

instance (a b : Stamp) : Decidable (stampLt a b) := by
  unfold stampLt
  infer_instance

/-- Session id code units: `YYYYMMDD_HHMMSS` from `startSession`
(`${year}${pad2 month}${pad2 day}_${pad2 hours}${pad2 minutes}${pad2 seconds}`). -/
def stampCodes (t : Stamp) : List Nat :=
  decCodes t.year ++ padCodes 2 (decCodes t.month) ++ padCodes 2 (decCodes t.day) ++
    [95] ++ padCodes 2 (decCodes t.hour) ++ padCodes 2 (decCodes t.minute) ++
    padCodes 2 (decCodes t.second)

/-- Session directory name: `session-` ++ session id. -/
def sessionName (t : Stamp) : List Nat := sessPreC ++ stampCodes t

theorem decCodes_year_eq {y : Nat} (h1 : 1000 ≤ y) (h2 : y < 10000) :
    decCodes y = pad4c y := by
  have hp : padCodes 4 (decCodes y) = pad4c y := pad4_eq h2
  have hlen : (toDecimal y).length = 4 := by
    rw [toDecimal_ge10 (by omega), toDecimal_ge10 (by omega)]
    rw [show y / 10 / 10 = y / 100 from Nat.div_div_eq_div_mul y 10 10]
    rw [toDecimal_ge10 (by omega)]
    rw [show y / 100 / 10 = y / 1000 from Nat.div_div_eq_div_mul y 100 10]
    rw [toDecimal_lt10 (by omega)]
    rfl
  rw [padCodes] at hp
  simpa [decCodes, hlen] using hp

/-- Fixed-width time-derived session names sort lexicographically in
chronological order. -/
theorem sessionName_mono {a b : Stamp} (ha : validStamp a) (hb : validStamp b)
    (hab : stampLt a b) : lexLtB (sessionName a) (sessionName b) = true := by
  obtain ⟨hay1, hay2, ham, had, hah, hami, has⟩ := ha
  obtain ⟨hby1, hby2, hbm, hbd, hbh, hbmi, hbs⟩ := hb
  rw [sessionName, sessionName, stampCodes, stampCodes]
  rw [decCodes_year_eq hay1 hay2, decCodes_year_eq hby1 hby2]
  rw [pad2_eq ham, pad2_eq had, pad2_eq hah, pad2_eq hami, pad2_eq has]
  rw [pad2_eq hbm, pad2_eq hbd, pad2_eq hbh, pad2_eq hbmi, pad2_eq hbs]
  simp only [List.append_assoc]
  rw [lexLtB_append_same]
  rcases hab with hy | ⟨hy, hrest⟩
  · exact lexLtB_append_of_lt _ _ (by simp [pad4c]) (lexLtB_pad4c hy hby2)
  · rw [hy, lexLtB_append_same]
    rcases hrest with hm | ⟨hm, hrest⟩
    · exact lexLtB_append_of_lt _ _ (by simp [pad2c]) (lexLtB_pad2c hm hbm)
    · rw [hm, lexLtB_append_same]
      rcases hrest with hd | ⟨hd, hrest⟩
      · exact lexLtB_append_of_lt _ _ (by simp [pad2c]) (lexLtB_pad2c hd hbd)
      · rw [hd, lexLtB_append_same, lexLtB_append_same]
        rcases hrest with hh | ⟨hh, hrest⟩
        · exact lexLtB_append_of_lt _ _ (by simp [pad2c]) (lexLtB_pad2c hh hbh)
        · rw [hh, lexLtB_append_same]
          rcases hrest with hmi | ⟨hmi, hs⟩
          · exact lexLtB_append_of_lt _ _ (by simp [pad2c]) (lexLtB_pad2c hmi hbmi)
          · rw [hmi, lexLtB_append_same]
            exact lexLtB_pad2c hs hbs

end Whisper

namespace Whisper

/-! ## WAV encoder (`encodeWAV` in TempRecordingManager)

Samples are modelled as rationals; the clamp/scale/truncate pipeline of the
source is exact on them.  `DataView.setInt16`/`setUint16`/`setUint32` convert
their argument by truncation toward zero and reduction mod 2^16 / 2^32,
little-endian. -/

/-- Truncation toward zero of a rational, as performed by `setInt16`. -/
def ratTrunc (q : ℚ) : Int := if q < 0 then -(Int.floor (-q)) else Int.floor q

/-- The 16-bit two's-complement pattern of an integer, as a `Nat` below 2^16. -/
def toUint16 (v : Int) : Nat := (v % 65536).toNat

/-- Little-endian byte pair written by `view.setInt16(_, v, true)`. -/
def int16le (v : Int) : List Nat := [toUint16 v % 256, toUint16 v / 256]

/-- Little-endian byte pair written by `view.setUint16(_, n, true)`. -/
def le16 (n : Nat) : List Nat := [n % 256, n / 256 % 256]

/-- Little-endian byte quadruple written by `view.setUint32(_, n, true)`. -/
def le32 (n : Nat) : List Nat :=
  [n % 256, n / 256 % 256, n / 65536 % 256, n / 16777216 % 256]

/-- Code units of `"RIFF"`. -/
def riffC : List Nat := [82, 73, 70, 70]

/-- Code units of `"WAVE"`. -/
def waveC : List Nat := [87, 65, 86, 69]

/-- Code units of `"fmt "`. -/
def fmtC : List Nat := [102, 109, 116, 32]

/-- Code units of `"data"`. -/
def dataChunkC : List Nat := [100, 97, 116, 97]

/-- A decoded `AudioBuffer`: channel count, sample rate, frame count, and
per-channel sample data. -/
structure AudioBuffer where
  numberOfChannels : Nat
  sampleRate : Nat
  length : Nat
  channelData : List (List ℚ)

/-- `buffer.getChannelData(i)`. -/
def getChannelData (b : AudioBuffer) (i : Nat) : List ℚ := b.channelData.getD i []

/-- The sample of channel `ch` at frame `i` (`channelData[ch][i]`). -/
def sampleAt (b : AudioBuffer) (ch i : Nat) : ℚ := (getChannelData b ch).getD i 0

/-- `clamped < 0 ? clamped * 0x8000 : clamped * 0x7FFF` after
`Math.max(-1, Math.min(1, sample))`, truncated by `setInt16`. -/
def sampleToInt (x : ℚ) : Int :=
  ratTrunc (if max (-1) (min 1 x) < 0 then max (-1) (min 1 x) * 32768
    else max (-1) (min 1 x) * 32767)

/-- The PCM payload: for each frame, for each channel, the little-endian
16-bit sample — the write loop of `encodeWAV` at offsets 44, 46, …. -/
def pcmData (b : AudioBuffer) : List Nat :=
  ((List.range b.length).map (fun i =>
    ((List.range b.numberOfChannels).map (fun ch =>
      int16le (sampleToInt (sampleAt b ch i)))).flatten)).flatten

/-- The 44 header bytes written by `encodeWAV` before the PCM payload
(`bitsPerSample = 16`, `format = 1`). -/
def wavHeader (numChannels sampleRate dataLen : Nat) : List Nat :=
  riffC ++ le32 (36 + dataLen) ++ waveC ++
    fmtC ++ le32 16 ++ le16 1 ++ le16 numChannels ++ le32 sampleRate ++
    le32 (sampleRate * numChannels * 16 / 8) ++ le16 (numChannels * 16 / 8) ++
    le16 16 ++ dataChunkC ++ le32 dataLen

/-- `encodeWAV`: header then PCM data; `length = buffer.length * numChannels * 2`. -/
def encodeWAV (b : AudioBuffer) : List Nat :=
  wavHeader b.numberOfChannels b.sampleRate (b.length * b.numberOfChannels * 2) ++
    pcmData b

theorem wavHeader_length (c r d : Nat) : (wavHeader c r d).length = 44 := by
  simp [wavHeader, riffC, waveC, fmtC, dataChunkC, le16, le32]

theorem flatten_const_length {α : Type} (f : Nat → List α) (k : Nat) (l : List Nat)
    (h : ∀ x ∈ l, (f x).length = k) : ((l.map f).flatten).length = l.length * k := by
  induction l with
  | nil => simp
  | cons a l ih =>
    simp only [List.map_cons, List.flatten_cons, List.length_append,
      h a (by simp), ih (fun x hx => h x (by simp [hx])), List.length_cons]
    ring

theorem pcmData_length (b : AudioBuffer) :
    (pcmData b).length = b.length * b.numberOfChannels * 2 := by
  rw [pcmData, flatten_const_length _ (b.numberOfChannels * 2)]
  · simp [Nat.mul_assoc]
  · intro i _
    rw [flatten_const_length _ 2]
    · simp
    · intro ch _
      simp [int16le]

theorem encodeWAV_length (b : AudioBuffer) :
    (encodeWAV b).length = 44 + b.length * b.numberOfChannels * 2 := by
  rw [encodeWAV, List.length_append, wavHeader_length, pcmData_length]

/-- The header layout as the specification words it: byte rate
`sampleRate × channels × 2` and block align `channels × 2`. -/
def riffHeaderSpec (numChannels sampleRate dataLen : Nat) : List Nat :=
  riffC ++ le32 (36 + dataLen) ++ waveC ++
    fmtC ++ le32 16 ++ le16 1 ++ le16 numChannels ++ le32 sampleRate ++
    le32 (sampleRate * numChannels * 2) ++ le16 (numChannels * 2) ++
    le16 16 ++ dataChunkC ++ le32 dataLen

theorem wavHeader_eq_spec (c r d : Nat) : wavHeader c r d = riffHeaderSpec c r d := by
  rw [wavHeader, riffHeaderSpec]
  rw [show r * c * 16 / 8 = r * c * 2 by
    rw [show r * c * 16 = r * c * 2 * 8 by ring]
    exact Nat.mul_div_cancel _ (by norm_num)]
  rw [show c * 16 / 8 = c * 2 by
    rw [show c * 16 = c * 2 * 8 by ring]
    exact Nat.mul_div_cancel _ (by norm_num)]

/-- The per-sample conversion exactly as the specification words it:
clamp to [-1, 1], scale by 32768 if negative and 32767 otherwise, truncate. -/
def clampScaleSpec (x : ℚ) : Int :=
  if max (-1) (min 1 x) < 0 then ratTrunc (max (-1) (min 1 x) * 32768)
  else ratTrunc (max (-1) (min 1 x) * 32767)

/-- The data section as the specification words it: `n × c` little-endian
signed 16-bit samples, interleaved per frame across channels. -/
def pcmSpec (b : AudioBuffer) : List Nat :=
  ((List.range b.length).map (fun i =>
    ((List.range b.numberOfChannels).map (fun ch =>
      int16le (clampScaleSpec (sampleAt b ch i)))).flatten)).flatten

theorem sampleToInt_eq_spec (x : ℚ) : sampleToInt x = clampScaleSpec x := by
  rw [sampleToInt, clampScaleSpec, apply_ite ratTrunc]

theorem pcmData_eq_spec (b : AudioBuffer) : pcmData b = pcmSpec b := by
  simp [pcmData, pcmSpec, sampleToInt_eq_spec]

theorem encodeWAV_drop_44 (b : AudioBuffer) : (encodeWAV b).drop 44 = pcmData b := by
  have h := List.drop_left (wavHeader b.numberOfChannels b.sampleRate
    (b.length * b.numberOfChannels * 2)) (pcmData b)
  rw [wavHeader_length] at h
  exact h

theorem encodeWAV_take_44 (b : AudioBuffer) :
    (encodeWAV b).take 44 = wavHeader b.numberOfChannels b.sampleRate
      (b.length * b.numberOfChannels * 2) := by
  have h := List.take_left (wavHeader b.numberOfChannels b.sampleRate
    (b.length * b.numberOfChannels * 2)) (pcmData b)
  rw [wavHeader_length] at h
  exact h

end Whisper

namespace Whisper

/-! ## AudioContextManager (src/AudioContextManager.ts)

The singleton holds a cached `AudioContext` and a reference count.  We model
a context object by an identity (creation ordinal) and its `state === 'closed'`
flag.  `closedIds` records the identities on which `close()` has been called —
in the browser a closed `AudioContext` stays closed forever, which is what
lets us express "a torn-down instance is never handed out again". -/

structure AudioCtx where
  id : Nat
  closed : Bool
deriving DecidableEq

structure AMState where
  ctx : Option AudioCtx
  refCount : Int
  nextId : Nat
  closedIds : List Nat
deriving DecidableEq

/-- The freshly constructed singleton: no context, refcount 0. -/
def amInit : AMState := ⟨none, 0, 0, []⟩

/-- `getContext`: create a new context if none is cached or the cached one is
closed, increment the refcount, return the context. -/
def getContext (s : AMState) : AudioCtx × AMState :=
  match s.ctx with
  | some c =>
    if c.closed then
      (⟨s.nextId, false⟩,
        ⟨some ⟨s.nextId, false⟩, s.refCount + 1, s.nextId + 1, s.closedIds⟩)
    else (c, ⟨s.ctx, s.refCount + 1, s.nextId, s.closedIds⟩)
  | none =>
    (⟨s.nextId, false⟩,
      ⟨some ⟨s.nextId, false⟩, s.refCount + 1, s.nextId + 1, s.closedIds⟩)

/-- `releaseContext`: decrement; if the count is now ≤ 0 and an open context
is cached, close it, clear the cache and reset the count to 0. -/
def releaseContext (s : AMState) : AMState :=
  match s.ctx with
  | some c =>
    if s.refCount - 1 ≤ 0 ∧ c.closed = false then
      ⟨none, 0, s.nextId, c.id :: s.closedIds⟩
    else ⟨s.ctx, s.refCount - 1, s.nextId, s.closedIds⟩
  | none => ⟨none, s.refCount - 1, s.nextId, s.closedIds⟩

/-- `forceClose`: close any open context, clear the cache, reset the count. -/
def forceClose (s : AMState) : AMState :=
  match s.ctx with
  | some c =>
    if c.closed = false then ⟨none, 0, s.nextId, c.id :: s.closedIds⟩
    else ⟨none, 0, s.nextId, s.closedIds⟩
  | none => ⟨none, 0, s.nextId, s.closedIds⟩

inductive AMOp where
  | get
  | release
  | force
deriving DecidableEq

def amStep (s : AMState) : AMOp → AMState
  | .get => (getContext s).2
  | .release => releaseContext s
  | .force => forceClose s

def amRun (s : AMState) : List AMOp → AMState
  | [] => s
  | op :: ops => amRun (amStep s op) ops

/-- Well-formedness: a cached context is open, not among the closed
identities, and below the creation counter; closed identities are below the
creation counter. -/
def amInv (s : AMState) : Prop :=
  (∀ c, s.ctx = some c → c.closed = false ∧ c.id ∉ s.closedIds ∧ c.id < s.nextId) ∧
    (∀ i ∈ s.closedIds, i < s.nextId)


theorem getContext_none (rc : Int) (nid : Nat) (cids : List Nat) :
    getContext ⟨none, rc, nid, cids⟩ =
      (⟨nid, false⟩, ⟨some ⟨nid, false⟩, rc + 1, nid + 1, cids⟩) := rfl

theorem getContext_open {c : AudioCtx} (hc : c.closed = false) (rc : Int)
    (nid : Nat) (cids : List Nat) :
    getContext ⟨some c, rc, nid, cids⟩ = (c, ⟨some c, rc + 1, nid, cids⟩) := by
  simp [getContext, hc]

theorem getContext_closed {c : AudioCtx} (hc : c.closed = true) (rc : Int)
    (nid : Nat) (cids : List Nat) :
    getContext ⟨some c, rc, nid, cids⟩ =
      (⟨nid, false⟩, ⟨some ⟨nid, false⟩, rc + 1, nid + 1, cids⟩) := by
  simp [getContext, hc]

theorem releaseContext_none (rc : Int) (nid : Nat) (cids : List Nat) :
    releaseContext ⟨none, rc, nid, cids⟩ = ⟨none, rc - 1, nid, cids⟩ := rfl

theorem releaseContext_open_low {c : AudioCtx} {rc : Int} (hc : c.closed = false)
    (hrc : rc - 1 ≤ 0) (nid : Nat) (cids : List Nat) :
    releaseContext ⟨some c, rc, nid, cids⟩ = ⟨none, 0, nid, c.id :: cids⟩ := by
  simp [releaseContext, hc, hrc]

theorem releaseContext_open_high {c : AudioCtx} {rc : Int} (hc : c.closed = false)
    (hrc : ¬ rc - 1 ≤ 0) (nid : Nat) (cids : List Nat) :
    releaseContext ⟨some c, rc, nid, cids⟩ = ⟨some c, rc - 1, nid, cids⟩ := by
  simp [releaseContext, hc, hrc]

theorem releaseContext_closed {c : AudioCtx} (hc : c.closed = true) (rc : Int)
    (nid : Nat) (cids : List Nat) :
    releaseContext ⟨some c, rc, nid, cids⟩ = ⟨some c, rc - 1, nid, cids⟩ := by
  simp [releaseContext, hc]

theorem forceClose_none (rc : Int) (nid : Nat) (cids : List Nat) :
    forceClose ⟨none, rc, nid, cids⟩ = ⟨none, 0, nid, cids⟩ := rfl

theorem forceClose_open {c : AudioCtx} (hc : c.closed = false) (rc : Int)
    (nid : Nat) (cids : List Nat) :
    forceClose ⟨some c, rc, nid, cids⟩ = ⟨none, 0, nid, c.id :: cids⟩ := by
  simp [forceClose, hc]

theorem forceClose_closed {c : AudioCtx} (hc : c.closed = true) (rc : Int)
    (nid : Nat) (cids : List Nat) :
    forceClose ⟨some c, rc, nid, cids⟩ = ⟨none, 0, nid, cids⟩ := by
  simp [forceClose, hc]

theorem amInv_rec {octx : Option AudioCtx} {rc : Int} {nid : Nat} {cids : List Nat} :
    amInv ⟨octx, rc, nid, cids⟩ ↔
      ((∀ c, octx = some c → c.closed = false ∧ c.id ∉ cids ∧ c.id < nid) ∧
        (∀ i ∈ cids, i < nid)) := Iff.rfl

theorem amInv_init : amInv amInit := by
  rw [amInit, amInv_rec]
  exact ⟨(fun c hc => nomatch hc), (fun i hi => nomatch hi)⟩

theorem amInv_step {s : AMState} (h : amInv s) (op : AMOp) : amInv (amStep s op) := by
  obtain ⟨sctx, rc, nid, cids⟩ := s
  rw [amInv_rec] at h
  obtain ⟨hctx, hclosed⟩ := h
  cases op with
  | get =>
    show amInv (getContext ⟨sctx, rc, nid, cids⟩).2
    cases sctx with
    | none =>
      rw [getContext_none, amInv_rec]
      refine ⟨?_, ?_⟩
      · intro c hcc
        cases hcc
        refine ⟨rfl, ?_, Nat.lt_succ_self nid⟩
        intro hmem
        exact absurd (hclosed _ hmem) (Nat.lt_irrefl _)
      · intro i hi
        have := hclosed i hi
        omega
    | some c0 =>
      obtain ⟨hop, hnm, hlt⟩ := hctx c0 rfl
      rw [getContext_open hop, amInv_rec]
      refine ⟨?_, hclosed⟩
      intro c hcc
      cases hcc
      exact ⟨hop, hnm, hlt⟩
  | release =>
    show amInv (releaseContext ⟨sctx, rc, nid, cids⟩)
    cases sctx with
    | none =>
      rw [releaseContext_none, amInv_rec]
      exact ⟨(fun c hcc => nomatch hcc), hclosed⟩
    | some c0 =>
      obtain ⟨hop, hnm, hlt⟩ := hctx c0 rfl
      by_cases hrc : rc - 1 ≤ 0
      · rw [releaseContext_open_low hop hrc, amInv_rec]
        refine ⟨(fun c hcc => nomatch hcc), ?_⟩
        intro i hi
        rcases List.mem_cons.mp hi with rfl | hi
        · exact hlt
        · exact hclosed i hi
      · rw [releaseContext_open_high hop hrc, amInv_rec]
        refine ⟨?_, hclosed⟩
        intro c hcc
        cases hcc
        exact ⟨hop, hnm, hlt⟩
  | force =>
    show amInv (forceClose ⟨sctx, rc, nid, cids⟩)
    cases sctx with
    | none =>
      rw [forceClose_none, amInv_rec]
      exact ⟨(fun c hcc => nomatch hcc), hclosed⟩
    | some c0 =>
      obtain ⟨hop, hnm, hlt⟩ := hctx c0 rfl
      rw [forceClose_open hop, amInv_rec]
      refine ⟨(fun c hcc => nomatch hcc), ?_⟩
      intro i hi
      rcases List.mem_cons.mp hi with rfl | hi
      · exact hlt
      · exact hclosed i hi

theorem amInv_run {s : AMState} (h : amInv s) (ops : List AMOp) :
    amInv (amRun s ops) := by
  induction ops generalizing s with
  | nil => exact h
  | cons op ops ih => exact ih (amInv_step h op)

/-- The closed-identity history only grows. -/
theorem closedIds_mono_step (s : AMState) (op : AMOp) (i : Nat)
    (h : i ∈ s.closedIds) : i ∈ (amStep s op).closedIds := by
  obtain ⟨sctx, rc, nid, cids⟩ := s
  cases op with
  | get =>
    show i ∈ (getContext ⟨sctx, rc, nid, cids⟩).2.closedIds
    cases sctx with
    | none => rw [getContext_none]; exact h
    | some c0 =>
      cases hc : c0.closed with
      | false => rw [getContext_open hc]; exact h
      | true => rw [getContext_closed hc]; exact h
  | release =>
    show i ∈ (releaseContext ⟨sctx, rc, nid, cids⟩).closedIds
    cases sctx with
    | none => rw [releaseContext_none]; exact h
    | some c0 =>
      cases hc : c0.closed with
      | false =>
        by_cases hrc : rc - 1 ≤ 0
        · rw [releaseContext_open_low hc hrc]
          exact List.mem_cons_of_mem _ h
        · rw [releaseContext_open_high hc hrc]; exact h
      | true => rw [releaseContext_closed hc]; exact h
  | force =>
    show i ∈ (forceClose ⟨sctx, rc, nid, cids⟩).closedIds
    cases sctx with
    | none => rw [forceClose_none]; exact h
    | some c0 =>
      cases hc : c0.closed with
      | false => rw [forceClose_open hc]; exact List.mem_cons_of_mem _ h
      | true => rw [forceClose_closed hc]; exact h

theorem closedIds_mono_run (s : AMState) (ops : List AMOp) (i : Nat)
    (h : i ∈ s.closedIds) : i ∈ (amRun s ops).closedIds := by
  induction ops generalizing s with
  | nil => exact h
  | cons op ops ih => exact ih _ (closedIds_mono_step s op i h)

/-- `getContext` never returns a context whose identity has already been
closed: a torn-down instance is never handed out again. -/
theorem getContext_not_closed {s : AMState} (h : amInv s) :
    (getContext s).1.id ∉ s.closedIds := by
  obtain ⟨sctx, rc, nid, cids⟩ := s
  rw [amInv_rec] at h
  obtain ⟨hctx, hclosed⟩ := h
  cases sctx with
  | none =>
    rw [getContext_none]
    intro hmem
    exact absurd (hclosed _ hmem) (Nat.lt_irrefl _)
  | some c0 =>
    obtain ⟨hop, hnm, _⟩ := hctx c0 rfl
    rw [getContext_open hop]
    exact hnm

end Whisper

namespace Whisper

/-! ## Session store on disk (TempRecordingManager)

A session directory holds `manifest.json` plus binary files.  File and
directory names are code-unit lists.  Because session directories contain no
subdirectories, the source's substring tests `includes("/chunk-")` /
`includes("/session-")` on full paths hold exactly when the entry name starts
with `chunk-` / `session-`. -/

/-- `startsWithL p l`: `l` begins with `p`. -/
def startsWithL : List Nat → List Nat → Bool
  | [], _ => true
  | _ :: _, [] => false
  | p :: ps, a :: as => if p = a then startsWithL ps as else false

theorem startsWithL_self_append (p r : List Nat) : startsWithL p (p ++ r) = true := by
  induction p with
  | nil => rfl
  | cons a ps ih => simp [startsWithL, ih]

/-- Session manifest (the `TempManifest` interface). -/
structure Manifest where
  mimeType : String
  startedAt : String
  chunkCount : Nat
deriving DecidableEq

/-- State of a session's `manifest.json`: missing, unparsable JSON, or a
parsed manifest.  `adapter.read` + `JSON.parse` succeed exactly in the
`present` case. -/
inductive ManEntry where
  | absent
  | corrupt
  | present (m : Manifest)
deriving DecidableEq

/-- A session directory: manifest file state plus binary files
(name ↦ bytes, in creation order). -/
structure SessionFS where
  manifest : ManEntry
  files : List (List Nat × List Nat)
deriving DecidableEq

/-- `adapter.writeBinary`: replace the file if present, else create it. -/
def overwriteF : List (List Nat × List Nat) → List Nat → List Nat →
    List (List Nat × List Nat)
  | [], n, b => [(n, b)]
  | e :: rest, n, b => if e.1 = n then (n, b) :: rest else e :: overwriteF rest n b

/-- File lookup by name. -/
def lookupF : List (List Nat × List Nat) → List Nat → Option (List Nat)
  | [], _ => none
  | e :: rest, n => if e.1 = n then some e.2 else lookupF rest n

/-- `adapter.readBinary` on a session file (`none` = the read throws). -/
def readBinFile (s : SessionFS) (n : List Nat) : Option (List Nat) :=
  lookupF s.files n

def writeBinFile (s : SessionFS) (n b : List Nat) : SessionFS :=
  ⟨s.manifest, overwriteF s.files n b⟩

/-- `adapter.list(sessionPath).files`, names only. -/
def listFiles (s : SessionFS) : List (List Nat) :=
  (match s.manifest with
    | .absent => []
    | _ => [manifestNameC]) ++ s.files.map (fun e => e.1)

/-- The session as `startSession` leaves it: manifest written with
`chunkCount = 0`, no binary files yet. -/
def startSessionFS (mime iso : String) : SessionFS :=
  ⟨.present ⟨mime, iso, 0⟩, []⟩

/-- `writeIncrementalChunk`: no-op on an empty blob; writes the chunk file;
then best-effort reads, parses, bumps (`max(existing, chunkIndex + 1)`) and
rewrites the manifest, swallowing any failure.  `writeOk = false` injects a
failure of the manifest rewrite; a missing or corrupt manifest makes the
read/parse step fail, which is also swallowed. -/
def writeIncrementalChunk (s : SessionFS) (chunkIndex : Nat) (bytes : List Nat)
    (writeOk : Bool) : SessionFS :=
  if bytes = [] then s
  else
    let s1 := writeBinFile s (chunkName chunkIndex) bytes
    match s1.manifest with
    | .present m =>
      if writeOk then
        ⟨.present ⟨m.mimeType, m.startedAt, max m.chunkCount (chunkIndex + 1)⟩,
          s1.files⟩
      else s1
    | _ => s1

/-- The chunk files of a session as `assembleBlobFromSession` enumerates
them: `listing.files` filtered to the chunk naming convention, sorted
lexicographically. -/
def chunkFilesOf (s : SessionFS) : List (List Nat) :=
  isort lexLeB ((listFiles s).filter (fun f => startsWithL chunkPreC f))

/-- Sequential `readBinary` of the named files (`none` = some read throws). -/
def readAllBin (s : SessionFS) : List (List Nat) → Option (List (List Nat))
  | [] => some []
  | n :: ns =>
    match readBinFile s n, readAllBin s ns with
    | some b, some bs => some (b :: bs)
    | _, _ => none

/-- The concatenation of the chunk files in sorted order — the `parts` pushed
into the raw `Blob`, before any transcoding. -/
def rawConcat (s : SessionFS) : Option (List Nat) :=
  match readAllBin s (chunkFilesOf s) with
  | some parts => some parts.flatten
  | none => none

end Whisper

namespace Whisper

/-! ## Appending fragments in sequence (the capture path) -/

/-- The fragment files created by appending `contents` at indices
`k, k+1, …`, in append order. -/
def chunkEntries (k : Nat) : List (List Nat) → List (List Nat × List Nat)
  | [] => []
  | b :: rest => (chunkName k, b) :: chunkEntries (k + 1) rest

/-- The fragment file names in append order. -/
def chunkNamesFrom (k : Nat) : List (List Nat) → List (List Nat)
  | [] => []
  | _ :: rest => chunkName k :: chunkNamesFrom (k + 1) rest

/-- Appending `contents` with `writeIncrementalChunk` at consecutive indices
starting from `k`; `fl i` tells whether the manifest rewrite at index `i`
succeeds. -/
def runAppends (fl : Nat → Bool) (s : SessionFS) (k : Nat) :
    List (List Nat) → SessionFS
  | [] => s
  | b :: rest => runAppends fl (writeIncrementalChunk s k b (fl k)) (k + 1) rest

theorem writeIncrementalChunk_files (s : SessionFS) (k : Nat) (b : List Nat)
    (w : Bool) : (writeIncrementalChunk s k b w).files =
      if b = [] then s.files else overwriteF s.files (chunkName k) b := by
  by_cases hb : b = []
  · simp [writeIncrementalChunk, hb]
  · cases hm : s.manifest <;> cases w <;>
      simp [writeIncrementalChunk, hb, writeBinFile, hm]

theorem overwriteF_fresh {l : List (List Nat × List Nat)} {n : List Nat}
    (h : ∀ e ∈ l, e.1 ≠ n) (b : List Nat) : overwriteF l n b = l ++ [(n, b)] := by
  induction l with
  | nil => rfl
  | cons e rest ih =>
    rw [overwriteF, if_neg (h e (by simp)), ih (fun x hx => h x (by simp [hx]))]
    rfl

theorem mem_chunkNamesFrom {n : List Nat} : ∀ {c : List (List Nat)} {k : Nat},
    n ∈ chunkNamesFrom k c → ∃ j, k ≤ j ∧ j < k + c.length ∧ n = chunkName j := by
  intro c
  induction c with
  | nil => intro k h; cases h
  | cons b rest ih =>
    intro k h
    rcases List.mem_cons.mp h with rfl | h
    · exact ⟨k, le_refl k, by simp, rfl⟩
    · obtain ⟨j, h1, h2, h3⟩ := ih h
      refine ⟨j, by omega, ?_, h3⟩
      simp only [List.length_cons]
      omega

theorem chunkEntries_names (k : Nat) (c : List (List Nat)) :
    (chunkEntries k c).map (fun e => e.1) = chunkNamesFrom k c := by
  induction c generalizing k with
  | nil => rfl
  | cons b rest ih => simp [chunkEntries, chunkNamesFrom, ih]

theorem chunkNamesFrom_pairwise (c : List (List Nat)) : ∀ (k : Nat),
    k + c.length ≤ 10000 →
    List.Pairwise (fun a b => lexLtB a b = true) (chunkNamesFrom k c) := by
  induction c with
  | nil => intro k _; exact List.Pairwise.nil
  | cons b rest ih =>
    intro k hk
    simp only [List.length_cons] at hk
    refine List.pairwise_cons.mpr ⟨?_, ih (k + 1) (by omega)⟩
    intro n hn
    obtain ⟨j, h1, h2, rfl⟩ := mem_chunkNamesFrom hn
    exact chunkName_mono (by omega) (by omega)

theorem runAppends_files (fl : Nat → Bool) (contents : List (List Nat)) :
    ∀ (k : Nat) (s : SessionFS), (∀ b ∈ contents, b ≠ []) →
    k + contents.length ≤ 10000 →
    (∀ e ∈ s.files, ∀ j, k ≤ j → j < 10000 → e.1 ≠ chunkName j) →
    (runAppends fl s k contents).files = s.files ++ chunkEntries k contents := by
  induction contents with
  | nil => intro k s _ _ _; simp [runAppends, chunkEntries]
  | cons b rest ih =>
    intro k s hne hbound hfresh
    have hb : b ≠ [] := hne b (by simp)
    have hwf : (writeIncrementalChunk s k b (fl k)).files =
        s.files ++ [(chunkName k, b)] := by
      rw [writeIncrementalChunk_files, if_neg hb]
      exact overwriteF_fresh
        (fun e he => hfresh e he k (le_refl k) (by simp at hbound; omega)) b
    show (runAppends fl (writeIncrementalChunk s k b (fl k)) (k + 1) rest).files = _
    rw [ih (k + 1) _ (fun x hx => hne x (by simp [hx]))
      (by simp at hbound ⊢; omega) ?_]
    · rw [hwf, chunkEntries, List.append_assoc]
      rfl
    · intro e he j hj1 hj2
      rw [hwf] at he
      rcases List.mem_append.mp he with he | he
      · exact hfresh e he j (by omega) hj2
      · simp at he
        subst he
        exact chunkName_ne (by omega) (by simp at hbound; omega) hj2

theorem readAllBin_congr {s s' : SessionFS} : ∀ {names : List (List Nat)},
    (∀ n ∈ names, readBinFile s' n = readBinFile s n) →
    readAllBin s' names = readAllBin s names := by
  intro names
  induction names with
  | nil => intro _; rfl
  | cons n ns ih =>
    intro h
    rw [readAllBin, readAllBin, h n (by simp), ih (fun x hx => h x (by simp [hx]))]

theorem readAllBin_chunkEntries (c : List (List Nat)) : ∀ (k : Nat) (me : ManEntry),
    k + c.length ≤ 10000 →
    readAllBin ⟨me, chunkEntries k c⟩ (chunkNamesFrom k c) = some c := by
  induction c with
  | nil => intro k me _; rfl
  | cons b rest ih =>
    intro k me hk
    simp only [List.length_cons] at hk
    rw [chunkNamesFrom, readAllBin]
    have h1 : readBinFile ⟨me, chunkEntries k (b :: rest)⟩ (chunkName k) = some b := by
      simp [readBinFile, chunkEntries, lookupF]
    have h2 : readAllBin ⟨me, chunkEntries k (b :: rest)⟩
        (chunkNamesFrom (k + 1) rest) = some rest := by
      rw [readAllBin_congr (s := ⟨me, chunkEntries (k + 1) rest⟩) ?_]
      · exact ih (k + 1) me (by omega)
      · intro n hn
        obtain ⟨j, hj1, hj2, rfl⟩ := mem_chunkNamesFrom hn
        show lookupF (chunkEntries k (b :: rest)) _ = _
        rw [chunkEntries, lookupF,
          if_neg (fun he => chunkName_ne (i := k) (j := j) (by omega) (by omega)
            (by omega) he)]
        rfl
    rw [h1, h2]

end Whisper

namespace Whisper

/-! ## Mime handling and reconstruction (`assembleBlobFromSession`) -/

/-- `str.split(c)` on character lists (JS `String.prototype.split` with a
one-character separator: empty parts preserved). -/
def splitOnChar (c : Char) : List Char → List (List Char)
  | [] => [[]]
  | a :: rest =>
    let r := splitOnChar c rest
    if a = c then [] :: r
    else
      match r with
      | h :: t => (a :: h) :: t
      | [] => [[a]]

/-- `getExtensionFromMime`: `mime.split("/")`, take `parts[1]`, strip any
`;`-parameters, `trim()`, `toLowerCase()`, fall back to `"dat"`. -/
def getExtensionFromMime (mime : String) : String :=
  match splitOnChar '/' mime.toList with
  | _ :: p1 :: _ =>
    let noParams := (splitOnChar ';' p1).headD []
    let trimmed :=
      ((noParams.dropWhile (fun ch => ch.isWhitespace)).reverse.dropWhile
        (fun ch => ch.isWhitespace)).reverse
    let sub := trimmed.map Char.toLower
    if sub = [] then "dat" else String.mk sub
  | _ => "dat"

/-- Code units of a string. -/
def strCodes (s : String) : List Nat := s.toList.map Char.toNat

/-- The legacy whole-file artifact name `recording.<ext>`. -/
def recordingNameC (mime : String) : List Nat :=
  strCodes ("recording." ++ getExtensionFromMime mime)

/-- `assembleBlobFromSession`: prefer chunk files (sorted, read, concatenated,
and transcoded to WAV via the shared AudioContext unless the mime type is
already `audio/wav`, falling back to the raw bytes if decoding throws —
the context is released on both paths by the `finally`); otherwise the legacy
single file; otherwise the "No recording data found in session" error
(`none`).  `decodeResult` abstracts `audioCtx.decodeAudioData` on the raw
buffer (`none` = the decode rejects). -/
def assembleBlobFromSession (sess : SessionFS) (mimeType : String)
    (decodeResult : Option AudioBuffer) (am : AMState) :
    Option (List Nat × String) × AMState :=
  let chunks := chunkFilesOf sess
  if chunks.isEmpty then
    match readBinFile sess (recordingNameC mimeType) with
    | some b => (some (b, mimeType), am)
    | none => (none, am)
  else
    match readAllBin sess chunks with
    | none => (none, am)
    | some parts =>
      let raw := parts.flatten
      if mimeType = "audio/wav" then (some (raw, mimeType), am)
      else
        let g := getContext am
        match decodeResult with
        | some buf => (some (encodeWAV buf, "audio/wav"), releaseContext g.2)
        | none => (some (raw, mimeType), releaseContext g.2)

/-! ## Recovery coordinator (`promptAndRecoverIfAny`) -/

/-- The root of the plugin's `tmp` directory: session folders by name. -/
def lookupS : List (List Nat × SessionFS) → List Nat → Option SessionFS
  | [], _ => none
  | e :: rest, n => if e.1 = n then some e.2 else lookupS rest n

/-- `deleteSession` on the root listing: the session folder is removed. -/
def eraseSession (root : List (List Nat × SessionFS)) (n : List Nat) :
    List (List Nat × SessionFS) :=
  root.filter (fun e => decide (e.1 ≠ n))

/-- `findLatestSessionPath`: session folders sorted by name descending
(`(a, b) => (a > b ? -1 : 1)`), first taken. -/
def findLatestSessionPath (root : List (List Nat × SessionFS)) :
    Option (List Nat) :=
  (isort lexGeB ((root.map (fun e => e.1)).filter
    (fun f => startsWithL sessPreC f))).head?

/-- The manifest used by recovery: parsed if possible, else the
`audio/webm` default built from the current time. -/
def manifestOrDefault (me : ManEntry) (nowIso : String) : Manifest :=
  match me with
  | .present m => m
  | _ => ⟨"audio/webm", nowIso, 0⟩

/-- `manifest?.mimeType || "audio/webm"`. -/
def mimeOrDefault (m : Manifest) : String :=
  if m.mimeType = "" then "audio/webm" else m.mimeType

/-- `String(n)` as a Lean string. -/
def natToStr (n : Nat) : String :=
  String.mk ((toDecimal n).map (fun d => Char.ofNat (48 + d)))

/-- `String(n).padStart(2, "0")`. -/
def pad2s (n : Nat) : String := if n < 10 then "0" ++ natToStr n else natToStr n

/-- `generateTimestampedName`: `yyyy-mm-dd_HH-MM.ext` built from the current
time (note: minutes resolution, no seconds). -/
def generateTimestampedName (now : Stamp) (ext : String) : String :=
  natToStr now.year ++ "-" ++ pad2s now.month ++ "-" ++ pad2s now.day ++ "_" ++
    pad2s now.hour ++ "-" ++ pad2s now.minute ++ "." ++ ext

/-- The modal's outcome. -/
inductive RecDecision where
  | discard
  | recover
deriving DecidableEq

/-- Observable outcome of one recovery attempt: the root listing afterwards,
the invocations of the consumer's `process` entry point (artifact bytes and
suggested file name), whether a failure notice was shown, and the
AudioContext manager state. -/
structure RecoveryOutcome where
  root : List (List Nat × SessionFS)
  processCalls : List (List Nat × String)
  errorReported : Bool
  am : AMState

/-- `promptAndRecoverIfAny`: find the most recent session; read its manifest
(defaulting on failure); show the modal.  Discard deletes the session.
Recover assembles the artifact, invokes `process` with it and a fresh
timestamped name, and deletes the session; if assembly throws, or `process`
rejects (`processOk = false`), the error is reported and the session is left
in place. -/
def promptAndRecoverIfAny (root : List (List Nat × SessionFS))
    (decision : RecDecision) (decodeResult : Option AudioBuffer) (am : AMState)
    (processOk : Bool) (now : Stamp) (nowIso : String) : RecoveryOutcome :=
  match findLatestSessionPath root with
  | none => ⟨root, [], false, am⟩
  | some sname =>
    match lookupS root sname with
    | none => ⟨root, [], false, am⟩
    | some sess =>
      let manifest := manifestOrDefault sess.manifest nowIso
      match decision with
      | .discard => ⟨eraseSession root sname, [], false, am⟩
      | .recover =>
        let mime := mimeOrDefault manifest
        match assembleBlobFromSession sess mime decodeResult am with
        | (none, am2) => ⟨root, [], true, am2⟩
        | (some (bytes, _), am2) =>
          let fileName := generateTimestampedName now (getExtensionFromMime mime)
          if processOk then ⟨eraseSession root sname, [(bytes, fileName)], false, am2⟩
          else ⟨root, [(bytes, fileName)], true, am2⟩

end Whisper

namespace Whisper

/-! ## Bridging lemmas -/

theorem startsWithL_chunkName (i : Nat) :
    startsWithL chunkPreC (chunkName i) = true := by
  rw [chunkName, List.append_assoc]
  exact startsWithL_self_append _ _

theorem startsWithL_sessionName (t : Stamp) :
    startsWithL sessPreC (sessionName t) = true := by
  rw [sessionName]
  exact startsWithL_self_append _ _

theorem chunkFilesOf_of_files {s : SessionFS} {c : List (List Nat)}
    (hf : s.files = chunkEntries 0 c) (hlen : c.length ≤ 10000) :
    chunkFilesOf s = chunkNamesFrom 0 c := by
  rw [chunkFilesOf, listFiles, List.filter_append]
  have h1 : ((match s.manifest with
      | .absent => ([] : List (List Nat))
      | _ => [manifestNameC])).filter (fun f => startsWithL chunkPreC f) = [] := by
    cases s.manifest <;> simp [List.filter] <;> decide
  have h2 : (s.files.map (fun e => e.1)).filter (fun f => startsWithL chunkPreC f) =
      chunkNamesFrom 0 c := by
    rw [hf, chunkEntries_names]
    apply List.filter_eq_self.mpr
    intro a ha
    obtain ⟨j, _, _, rfl⟩ := mem_chunkNamesFrom ha
    exact startsWithL_chunkName j
  rw [h1, h2, List.nil_append]
  exact isort_of_chain _ (chunkNamesFrom_pairwise c 0 (by omega))

theorem readAllBin_of_files {s : SessionFS} {c : List (List Nat)}
    (hf : s.files = chunkEntries 0 c) (hlen : c.length ≤ 10000) :
    readAllBin s (chunkNamesFrom 0 c) = some c := by
  have h2 := readAllBin_chunkEntries c 0 s.manifest (by omega)
  rw [← h2]
  apply readAllBin_congr
  intro n _
  show lookupF s.files n = lookupF (chunkEntries 0 c) n
  rw [hf]

theorem rawConcat_of_files {s : SessionFS} {c : List (List Nat)}
    (hf : s.files = chunkEntries 0 c) (hlen : c.length ≤ 10000) :
    rawConcat s = some c.flatten := by
  rw [rawConcat, chunkFilesOf_of_files hf hlen, readAllBin_of_files hf hlen]

theorem lookupF_overwriteF (l : List (List Nat × List Nat)) (n b : List Nat) :
    lookupF (overwriteF l n b) n = some b := by
  induction l with
  | nil => simp [overwriteF, lookupF]
  | cons e rest ih =>
    by_cases he : e.1 = n
    · rw [overwriteF, if_pos he, lookupF, if_pos rfl]
    · rw [overwriteF, if_neg he, lookupF, if_neg he, ih]

/-- Balanced scoped acquisition: a `getContext` followed by `releaseContext`
restores the refcount, creates a context when none was cached, and tears the
context down again when no outer holder remains. -/
theorem releaseContext_getContext (am : AMState) (hrc : 0 ≤ am.refCount) :
    (releaseContext (getContext am).2).refCount = am.refCount ∧
    (am.ctx = none → (releaseContext (getContext am).2).nextId = am.nextId + 1) ∧
    (am.refCount = 0 → (releaseContext (getContext am).2).ctx = none) := by
  obtain ⟨sctx, rc, nid, cids⟩ := am
  simp only at hrc ⊢
  cases sctx with
  | none =>
    rw [getContext_none]
    by_cases hrc1 : rc + 1 - 1 ≤ 0
    · rw [releaseContext_open_low rfl hrc1]
      exact ⟨by show (0 : Int) = rc; omega, fun _ => rfl, fun _ => rfl⟩
    · rw [releaseContext_open_high rfl hrc1]
      refine ⟨by show rc + 1 - 1 = rc; omega, fun _ => rfl, fun h0 => ?_⟩
      rw [show rc = 0 from h0] at hrc1
      exact absurd (by omega) hrc1
  | some c0 =>
    cases hcl : c0.closed with
    | false =>
      rw [getContext_open hcl]
      by_cases hrc1 : rc + 1 - 1 ≤ 0
      · rw [releaseContext_open_low hcl hrc1]
        exact ⟨by show (0 : Int) = rc; omega, (fun hn => nomatch hn), fun _ => rfl⟩
      · rw [releaseContext_open_high hcl hrc1]
        refine ⟨by show rc + 1 - 1 = rc; omega, (fun hn => nomatch hn), fun h0 => ?_⟩
        rw [show rc = 0 from h0] at hrc1
        exact absurd (by omega) hrc1
    | true =>
      rw [getContext_closed hcl]
      by_cases hrc1 : rc + 1 - 1 ≤ 0
      · rw [releaseContext_open_low rfl hrc1]
        exact ⟨by show (0 : Int) = rc; omega, (fun hn => nomatch hn), fun _ => rfl⟩
      · rw [releaseContext_open_high rfl hrc1]
        refine ⟨by show rc + 1 - 1 = rc; omega, (fun hn => nomatch hn), fun h0 => ?_⟩
        rw [show rc = 0 from h0] at hrc1
        exact absurd (by omega) hrc1

theorem lookupS_eraseSession (root : List (List Nat × SessionFS)) (n x : List Nat)
    (hx : x ≠ n) : lookupS (eraseSession root n) x = lookupS root x := by
  induction root with
  | nil => rfl
  | cons e rest ih =>
    by_cases he : e.1 = n
    · rw [eraseSession, List.filter]
      rw [show (decide (e.1 ≠ n)) = false by simp [he]]
      show lookupS (eraseSession rest n) x = _
      rw [ih, lookupS, if_neg (fun h => hx (h.symm.trans he))]
    · rw [eraseSession, List.filter]
      rw [show (decide (e.1 ≠ n)) = true by simp [he]]
      show lookupS (e :: eraseSession rest n) x = _
      rw [lookupS, lookupS]
      by_cases hex : e.1 = x
      · rw [if_pos hex, if_pos hex]
      · rw [if_neg hex, if_neg hex, ih]

/-- The recovery step either leaves the root listing untouched or removes
exactly the selected (latest) session folder. -/
theorem promptAndRecover_root_sub (root : List (List Nat × SessionFS))
    (decision : RecDecision) (dec : Option AudioBuffer) (am : AMState)
    (processOk : Bool) (now : Stamp) (nowIso : String) :
    (promptAndRecoverIfAny root decision dec am processOk now nowIso).root = root ∨
      ∃ sname, findLatestSessionPath root = some sname ∧
        (promptAndRecoverIfAny root decision dec am processOk now nowIso).root =
          eraseSession root sname := by
  cases hf : findLatestSessionPath root with
  | none => exact Or.inl (by simp [promptAndRecoverIfAny, hf])
  | some sname =>
    cases hl : lookupS root sname with
    | none => exact Or.inl (by simp [promptAndRecoverIfAny, hf, hl])
    | some sess =>
      cases decision with
      | discard =>
        exact Or.inr ⟨sname, rfl, by simp [promptAndRecoverIfAny, hf, hl]⟩
      | recover =>
        rcases hasm : assembleBlobFromSession sess
            (mimeOrDefault (manifestOrDefault sess.manifest nowIso)) dec am with
          ⟨res, am2⟩
        cases res with
        | none => exact Or.inl (by simp [promptAndRecoverIfAny, hf, hl, hasm])
        | some p =>
          rcases p with ⟨bytes, bmime⟩
          cases processOk with
          | true =>
            exact Or.inr ⟨sname, rfl, by simp [promptAndRecoverIfAny, hf, hl, hasm]⟩
          | false => exact Or.inl (by simp [promptAndRecoverIfAny, hf, hl, hasm])

end Whisper

namespace Whisper

/-! ## Claims: WAV encoder -/

/-- The 1-channel, 2-sample buffer `[1.0, -1.0]` at 16000 Hz from the
specification's encoder test vector. -/
def exBuf : AudioBuffer := ⟨1, 16000, 2, [[1, -1]]⟩

theorem exBuf_pcm : pcmData exBuf = [255, 127, 0, 128] := by
  have h1 : int16le (sampleToInt (sampleAt exBuf 0 0)) = [255, 127] := by
    norm_num [exBuf, sampleAt, getChannelData, sampleToInt, ratTrunc, int16le,
      toUint16]
    decide
  have h2 : int16le (sampleToInt (sampleAt exBuf 0 1)) = [0, 128] := by
    norm_num [exBuf, sampleAt, getChannelData, sampleToInt, ratTrunc, int16le,
      toUint16]
    decide
  simp [pcmData, exBuf, List.range_succ]
  rw [show (⟨1, 16000, 2, [[1, -1]]⟩ : AudioBuffer) = exBuf from rfl] at *
  simp [h1, h2]

/-- C2 counterexample: on the 1-channel, 2-sample buffer `[1.0, -1.0]` at
16000 Hz the encoder emits exactly 48 bytes — a 44-byte header plus the 4
data bytes `FF 7F 00 80` — not the 46 bytes the claim asserts
(44 + 2·1·2 = 48). -/
theorem C2_counterexample : (encodeWAV exBuf).length = 48 ∧
    encodeWAV exBuf = riffHeaderSpec 1 16000 4 ++ [255, 127, 0, 128] := by
  constructor
  · rw [encodeWAV_length]
    rfl
  · rw [encodeWAV, exBuf_pcm, wavHeader_eq_spec]
    rfl

/-- C2 (amended): for every decoded buffer the data section from byte offset
44 consists of the frame-interleaved samples, each clamped to [-1, 1], scaled
by 32768 if negative and 32767 otherwise, truncated, little-endian; on the
1-channel 2-sample buffer `[1.0, -1.0]` at 16000 Hz the output is exactly 48
bytes: the 44-byte header followed by `FF 7F` then `00 80`. -/
theorem C2_data_section :
    (∀ b : AudioBuffer, (encodeWAV b).drop 44 = pcmSpec b) ∧
    (encodeWAV exBuf).length = 48 ∧
    encodeWAV exBuf = riffHeaderSpec 1 16000 4 ++ [255, 127, 0, 128] := by
  refine ⟨fun b => ?_, ?_, ?_⟩
  · rw [encodeWAV_drop_44, pcmData_eq_spec]
  · rw [encodeWAV_length]
    rfl
  · rw [encodeWAV, exBuf_pcm, wavHeader_eq_spec]
    rfl

/-- C3: for every buffer, `encodeWAV` returns exactly
`44 + frameCount × channelCount × 2` bytes; the first 44 bytes are the
RIFF/WAVE header with chunk size `36 + dataLength`, format tag 1, the given
channel count and sample rate, byte rate `r·c·2`, block align `c·2`, 16 bits
per sample, and a `data` chunk of size `dataLength = n·c·2`, all fields
little-endian; the remainder is the PCM payload — never an under- or
over-run. -/
theorem C3_header_and_size (b : AudioBuffer) :
    (encodeWAV b).length = 44 + b.length * b.numberOfChannels * 2 ∧
    (encodeWAV b).take 44 = riffHeaderSpec b.numberOfChannels b.sampleRate
      (b.length * b.numberOfChannels * 2) ∧
    (encodeWAV b).drop 44 = pcmData b :=
  ⟨encodeWAV_length b, by rw [encodeWAV_take_44, wavHeader_eq_spec],
    encodeWAV_drop_44 b⟩

/-- A malformed buffer: zero channels. -/
def zeroChBuf : AudioBuffer := ⟨0, 16000, 2, []⟩

/-- C9 counterexample: `encodeWAV` performs no input validation; on a
zero-channel buffer it returns normally — a 44-byte header-only file whose
channel-count field is 0 — instead of failing with `InvalidAudioBuffer`. -/
theorem C9_counterexample : encodeWAV zeroChBuf = riffHeaderSpec 0 16000 0 ∧
    (encodeWAV zeroChBuf).length = 44 := by decide

/-- C9 (amended): `encodeWAV` never raises; there is no input validation in
the code.  A zero-channel buffer is encoded as the 44-byte header-only file
with channel count 0 and empty data.  (Non-finite sample rates lie outside
this integer-rate model.) -/
theorem C9_no_validation (b : AudioBuffer) (h : b.numberOfChannels = 0) :
    encodeWAV b = riffHeaderSpec 0 b.sampleRate 0 := by
  have hp : pcmData b = [] := by simp [pcmData, h]
  rw [encodeWAV, h, hp, wavHeader_eq_spec]
  simp

theorem C9_witness : encodeWAV ⟨0, 8000, 3, []⟩ = riffHeaderSpec 0 8000 0 :=
  C9_no_validation ⟨0, 8000, 3, []⟩ rfl

/-! ## Claims: AudioContextManager -/

/-- C5: acquiring twice and releasing twice leaves the refcount at zero with
the resource torn down and the cached handle cleared; a subsequent acquire
returns a context with a different identity than the original; and after any
further operation sequence, an acquire never returns the torn-down identity
again. -/
theorem C5_refcount_lifecycle :
    (amRun amInit [.get, .get, .release, .release]).refCount = 0 ∧
    (amRun amInit [.get, .get, .release, .release]).ctx = none ∧
    (getContext (amRun amInit [.get, .get, .release, .release])).1.id ≠
      (getContext amInit).1.id ∧
    ∀ ops : List AMOp,
      (getContext (amRun (amRun amInit [.get, .get, .release, .release]) ops)).1.id ≠
        (getContext amInit).1.id := by
  refine ⟨by decide, by decide, by decide, ?_⟩
  intro ops heq
  have hinv : amInv (amRun (amRun amInit [.get, .get, .release, .release]) ops) :=
    amInv_run (amInv_run amInv_init _) ops
  have hmem : (0 : Nat) ∈
      (amRun (amRun amInit [.get, .get, .release, .release]) ops).closedIds :=
    closedIds_mono_run _ ops 0 (by decide)
  have hnot := getContext_not_closed hinv
  rw [show (getContext amInit).1.id = 0 from rfl] at heq
  rw [heq] at hnot
  exact hnot hmem

/-- C10 counterexample: a release with no cached context decrements the
refcount past zero — from the initial state a single `releaseContext` leaves
the refcount at -1, so the refcount can be negative after an operation. -/
theorem C10_counterexample : (releaseContext amInit).refCount = -1 := by decide

/-- C10 (amended): release clamps the refcount to zero only when a live open
context is cached at release time; after such a release the refcount is never
negative.  A release with no live context can leave it negative, as the
counterexample shows. -/
theorem C10_release_clamps (s : AMState) (c : AudioCtx) (hc : s.ctx = some c)
    (hopen : c.closed = false) : 0 ≤ (releaseContext s).refCount := by
  obtain ⟨sctx, rc, nid, cids⟩ := s
  simp only at hc
  subst hc
  by_cases hrc : rc - 1 ≤ 0
  · rw [releaseContext_open_low hopen hrc]
  · rw [releaseContext_open_high hopen hrc]
    show (0 : Int) ≤ rc - 1
    omega

theorem C10_witness : 0 ≤ (releaseContext ⟨some ⟨0, false⟩, 1, 1, []⟩).refCount :=
  C10_release_clamps ⟨some ⟨0, false⟩, 1, 1, []⟩ ⟨0, false⟩ rfl rfl

end Whisper

namespace Whisper

/-! ## Claims: session store -/

/-- C1: for every sequence of N fragments appended with strictly increasing
indices 0..N-1 (below the 4-digit padding limit) and non-empty contents —
regardless of which manifest updates fail — enumerating the session's
fragment files sorted lexicographically by name returns them in append order,
and reconstruction concatenates them into exactly `s_1 ++ … ++ s_N` before
any transcoding. -/
theorem C1_fragments_sorted_concat (contents : List (List Nat)) (fl : Nat → Bool)
    (mime iso : String) (hne : ∀ b ∈ contents, b ≠ [])
    (hlen : contents.length ≤ 10000) :
    chunkFilesOf (runAppends fl (startSessionFS mime iso) 0 contents) =
        chunkNamesFrom 0 contents ∧
      rawConcat (runAppends fl (startSessionFS mime iso) 0 contents) =
        some contents.flatten := by
  have hfiles : (runAppends fl (startSessionFS mime iso) 0 contents).files =
      chunkEntries 0 contents := by
    have h := runAppends_files fl contents 0 (startSessionFS mime iso) hne
      (by omega) (by intro e he _ _ _ _; simp [startSessionFS] at he)
    simpa [startSessionFS] using h
  exact ⟨chunkFilesOf_of_files hfiles hlen, rawConcat_of_files hfiles hlen⟩

theorem C1_witness :
    chunkFilesOf (runAppends (fun _ => false) (startSessionFS "audio/webm" "t") 0
        [[1], [2, 3]]) = chunkNamesFrom 0 [[1], [2, 3]] ∧
      rawConcat (runAppends (fun _ => false) (startSessionFS "audio/webm" "t") 0
        [[1], [2, 3]]) = some [1, 2, 3] :=
  C1_fragments_sorted_concat [[1], [2, 3]] (fun _ => false) "audio/webm" "t"
    (by decide) (by decide)

/-- C6: `writeIncrementalChunk` is a no-op on empty bytes; otherwise the
fragment file exists on disk with exactly the given bytes no matter whether
the manifest read/parse/rewrite fails (`writeOk`, or a missing/corrupt
manifest); and when the manifest update does go through, `chunkCount` becomes
`max(existing, chunkIndex + 1)`.  The embedding is total: no failure mode of
the manifest step raises to the caller. -/
theorem C6_append_durability (s : SessionFS) (i : Nat) (bytes : List Nat)
    (writeOk : Bool) :
    (bytes = [] → writeIncrementalChunk s i bytes writeOk = s) ∧
    (bytes ≠ [] →
      readBinFile (writeIncrementalChunk s i bytes writeOk) (chunkName i) =
        some bytes) ∧
    (∀ m, bytes ≠ [] → s.manifest = .present m → writeOk = true →
      (writeIncrementalChunk s i bytes writeOk).manifest =
        .present ⟨m.mimeType, m.startedAt, max m.chunkCount (i + 1)⟩) := by
  refine ⟨fun hb => by simp [writeIncrementalChunk, hb], fun hb => ?_, ?_⟩
  · have hf := writeIncrementalChunk_files s i bytes writeOk
    rw [if_neg hb] at hf
    show lookupF (writeIncrementalChunk s i bytes writeOk).files _ = _
    rw [hf]
    exact lookupF_overwriteF s.files (chunkName i) bytes
  · intro m hb hm hw
    simp [writeIncrementalChunk, hb, writeBinFile, hm, hw]

theorem C6_witness :
    readBinFile (writeIncrementalChunk (startSessionFS "audio/webm" "t") 0 [7] true)
        (chunkName 0) = some [7] ∧
      (writeIncrementalChunk (startSessionFS "audio/webm" "t") 0 [7] true).manifest =
        .present ⟨"audio/webm", "t", 1⟩ := by
  have h := C6_append_durability (startSessionFS "audio/webm" "t") 0 [7] true
  exact ⟨h.2.1 (by decide), h.2.2 ⟨"audio/webm", "t", 0⟩ (by decide) rfl rfl⟩

/-! ## Claims: reconstruction and recovery -/

/-- C7: whenever the session's mime type is not `audio/wav`, reconstruction
acquires the shared context handle, decodes and re-encodes through the WAV
encoder — or, if the decode throws, falls back to delivering the raw
concatenated bytes instead of raising — and releases the handle on every
exit path: the refcount is restored, a context is created when none was
cached, and it is torn down again when no outer holder remains. -/
theorem C7_transcode_scoped (sess : SessionFS) (mimeType : String)
    (decodeResult : Option AudioBuffer) (am : AMState) (parts : List (List Nat))
    (hreads : readAllBin sess (chunkFilesOf sess) = some parts)
    (hchunks : chunkFilesOf sess ≠ [])
    (hmime : mimeType ≠ "audio/wav") (hrc : 0 ≤ am.refCount) :
    (assembleBlobFromSession sess mimeType decodeResult am).2.refCount =
        am.refCount ∧
    (am.ctx = none →
      (assembleBlobFromSession sess mimeType decodeResult am).2.nextId =
        am.nextId + 1) ∧
    (am.refCount = 0 →
      (assembleBlobFromSession sess mimeType decodeResult am).2.ctx = none) ∧
    (decodeResult = none →
      (assembleBlobFromSession sess mimeType decodeResult am).1 =
        some (parts.flatten, mimeType)) ∧
    (∀ buf, decodeResult = some buf →
      (assembleBlobFromSession sess mimeType decodeResult am).1 =
        some (encodeWAV buf, "audio/wav")) := by
  have hemp : (chunkFilesOf sess).isEmpty = false := by
    cases hc : chunkFilesOf sess with
    | nil => exact absurd hc hchunks
    | cons a l => rfl
  obtain ⟨hr1, hr2, hr3⟩ := releaseContext_getContext am hrc
  cases decodeResult with
  | none =>
    have hred : assembleBlobFromSession sess mimeType none am =
        (some (parts.flatten, mimeType), releaseContext (getContext am).2) := by
      simp [assembleBlobFromSession, hemp, hreads, hmime]
    rw [hred]
    exact ⟨hr1, hr2, hr3, fun _ => rfl, fun buf hb => nomatch hb⟩
  | some buf0 =>
    have hred : assembleBlobFromSession sess mimeType (some buf0) am =
        (some (encodeWAV buf0, "audio/wav"), releaseContext (getContext am).2) := by
      simp [assembleBlobFromSession, hemp, hreads, hmime]
    rw [hred]
    refine ⟨hr1, hr2, hr3, (fun hn => nomatch hn), fun buf hb => ?_⟩
    cases hb
    rfl

/-- A one-chunk webm session for the witnesses. -/
def sessW : SessionFS := ⟨.present ⟨"audio/webm", "t", 1⟩, [(chunkName 0, [9])]⟩

theorem C7_witness :
    (assembleBlobFromSession sessW "audio/webm" none amInit).2.refCount = 0 ∧
      (assembleBlobFromSession sessW "audio/webm" none amInit).1 =
        some ([9], "audio/webm") := by
  have h := C7_transcode_scoped sessW "audio/webm" none amInit [[9]]
    (by decide) (by decide) (by decide) (by decide)
  exact ⟨h.1, h.2.2.2.1 rfl⟩

end Whisper

namespace Whisper

/-- Fixed concrete current time for the Act-step scenarios. -/
def t0 : Stamp := ⟨2024, 1, 2, 3, 4, 5⟩

/-- A one-chunk `audio/wav` session (no transcode on recovery). -/
def sess0 : SessionFS := ⟨.present ⟨"audio/wav", "iso0", 1⟩, [(chunkName 0, [1, 2])]⟩

/-- A root listing with a single abandoned session. -/
def root1 : List (List Nat × SessionFS) := [(sessionName t0, sess0)]

/-- C4 counterexample: decision Recover with a failing consumer — `process`
is invoked once with the reconstructed artifact and a name derived from the
current time, the error is reported, but the session directory still exists
afterwards; the claim asserts it would be deleted even on processing
failure. -/
theorem C4_counterexample :
    (promptAndRecoverIfAny root1 .recover none amInit false t0 "iso0").processCalls =
        [([1, 2], "2024-01-02_03-04.wav")] ∧
      (promptAndRecoverIfAny root1 .recover none amInit false t0 "iso0").errorReported =
        true ∧
      (promptAndRecoverIfAny root1 .recover none amInit false t0 "iso0").root =
        root1 := by
  refine ⟨by decide, by decide, by decide⟩

/-- C4 (amended): on Discard the consumer's entry point is never invoked and
the session is deleted; on Recover with a successful reconstruction the entry
point is invoked exactly once with the artifact and a timestamped filename
generated from the current time, and the session is deleted only if the entry
point succeeds — if it fails, the error is reported and the session is left
on disk for a future run. -/
theorem C4_act_step (root : List (List Nat × SessionFS)) (decision : RecDecision)
    (dec : Option AudioBuffer) (am : AMState) (processOk : Bool) (now : Stamp)
    (nowIso : String) (sname : List Nat) (sess : SessionFS)
    (hfind : findLatestSessionPath root = some sname)
    (hlook : lookupS root sname = some sess) :
    (decision = .discard →
      (promptAndRecoverIfAny root decision dec am processOk now nowIso).processCalls =
          [] ∧
        (promptAndRecoverIfAny root decision dec am processOk now nowIso).root =
          eraseSession root sname) ∧
    (∀ bytes bmime am2, decision = .recover →
      assembleBlobFromSession sess
          (mimeOrDefault (manifestOrDefault sess.manifest nowIso)) dec am =
        (some (bytes, bmime), am2) →
      (promptAndRecoverIfAny root decision dec am processOk now nowIso).processCalls =
          [(bytes, generateTimestampedName now (getExtensionFromMime
            (mimeOrDefault (manifestOrDefault sess.manifest nowIso))))] ∧
        (processOk = true →
          (promptAndRecoverIfAny root decision dec am processOk now nowIso).root =
              eraseSession root sname ∧
            (promptAndRecoverIfAny root decision dec am processOk now
              nowIso).errorReported = false) ∧
        (processOk = false →
          (promptAndRecoverIfAny root decision dec am processOk now nowIso).root =
              root ∧
            (promptAndRecoverIfAny root decision dec am processOk now
              nowIso).errorReported = true)) := by
  constructor
  · intro hd
    subst hd
    exact ⟨by simp [promptAndRecoverIfAny, hfind, hlook],
      by simp [promptAndRecoverIfAny, hfind, hlook]⟩
  · intro bytes bmime am2 hd hasm
    subst hd
    cases processOk with
    | true =>
      refine ⟨by simp [promptAndRecoverIfAny, hfind, hlook, hasm], fun _ => ?_,
        fun hf => nomatch hf⟩
      exact ⟨by simp [promptAndRecoverIfAny, hfind, hlook, hasm],
        by simp [promptAndRecoverIfAny, hfind, hlook, hasm]⟩
    | false =>
      refine ⟨by simp [promptAndRecoverIfAny, hfind, hlook, hasm],
        (fun ht => nomatch ht), fun _ => ?_⟩
      exact ⟨by simp [promptAndRecoverIfAny, hfind, hlook, hasm],
        by simp [promptAndRecoverIfAny, hfind, hlook, hasm]⟩

theorem C4_witness :
    (promptAndRecoverIfAny root1 .discard none amInit true t0 "iso0").processCalls =
        [] ∧
      (promptAndRecoverIfAny root1 .discard none amInit true t0 "iso0").root =
        eraseSession root1 (sessionName t0) := by
  have h := C4_act_step root1 .discard none amInit true t0 "iso0"
    (sessionName t0) sess0 (by decide) (by decide)
  exact h.1 rfl

/-- C8: recovery targets only the most recent session — the session folders
sort by id descending, lexicographic order agreeing with chronological order
for the fixed-width time-derived ids, and only the head is selected; every
other session is untouched by the recovery step, whatever the decision and
outcomes; and a missing or corrupt manifest of the selected session is
tolerated by substituting the `audio/webm` fallback instead of failing. -/
theorem C8_latest_only (root : List (List Nat × SessionFS)) (tm : Stamp)
    (decision : RecDecision) (dec : Option AudioBuffer) (am : AMState)
    (processOk : Bool) (now : Stamp) (nowIso : String)
    (hvm : validStamp tm)
    (hmem : sessionName tm ∈ root.map (fun e => e.1))
    (hall : ∀ n ∈ root.map (fun e => e.1), n = sessionName tm ∨
      ∃ t, validStamp t ∧ stampLt t tm ∧ n = sessionName t) :
    findLatestSessionPath root = some (sessionName tm) ∧
    (∀ x, x ≠ sessionName tm →
      lookupS (promptAndRecoverIfAny root decision dec am processOk now
        nowIso).root x = lookupS root x) ∧
    (∀ me : ManEntry, me = .absent ∨ me = .corrupt →
      mimeOrDefault (manifestOrDefault me nowIso) = "audio/webm") := by
  have hfilter : (root.map (fun e => e.1)).filter
      (fun f => startsWithL sessPreC f) = root.map (fun e => e.1) := by
    apply List.filter_eq_self.mpr
    intro n hn
    rcases hall n hn with rfl | ⟨t, _, _, rfl⟩
    · exact startsWithL_sessionName tm
    · exact startsWithL_sessionName t
  have hfind : findLatestSessionPath root = some (sessionName tm) := by
    rw [findLatestSessionPath, hfilter]
    obtain ⟨h, hh, hmem2, hmax⟩ := isort_desc_max (root.map (fun e => e.1))
      (by intro he; rw [he] at hmem; cases hmem)
    rw [hh]
    congr 1
    rcases hall h hmem2 with rfl | ⟨t, hv, hlt, rfl⟩
    · rfl
    · have h1 := sessionName_mono hv hvm hlt
      have h2 := hmax (sessionName tm) hmem
      rw [h2] at h1
      exact absurd h1 (by simp)
  refine ⟨hfind, ?_, ?_⟩
  · intro x hx
    rcases promptAndRecover_root_sub root decision dec am processOk now nowIso with
      h | ⟨sn, hsn, hroot⟩
    · rw [h]
    · rw [hroot]
      rw [hfind] at hsn
      injection hsn with hsn
      subst hsn
      exact lookupS_eraseSession root _ x hx
  · intro me hme
    rcases hme with rfl | rfl <;> simp [manifestOrDefault, mimeOrDefault]

/-- An older session with a missing manifest. -/
def t1 : Stamp := ⟨2024, 1, 1, 0, 0, 0⟩

def sessA : SessionFS := ⟨.absent, []⟩

def root2 : List (List Nat × SessionFS) :=
  [(sessionName t1, sessA), (sessionName t0, sess0)]

theorem C8_witness : findLatestSessionPath root2 = some (sessionName t0) := by
  have h := C8_latest_only root2 t0 .discard none amInit true t0 "iso0"
    (by decide) (by decide)
    (by
      intro n hn
      simp only [root2, List.map_cons, List.map_nil, List.mem_cons,
        List.not_mem_nil, or_false] at hn
      rcases hn with rfl | rfl
      · exact Or.inr ⟨t1, by decide, by decide, rfl⟩
      · exact Or.inl rfl)
  exact h.1

end Whisper
